import Mathlib

/-!
Verification development for the QryptSecurity key-generation SDK
(`qrypt-security-0.5.2-linux`).

The repository ships only the public headers
`include/QryptSecurity/qryptsecurity.h` and `qryptsecurity_private.h`;
the enumerations, structures and member signatures below are translated
from those headers.  The behaviour of the cache engine and of the two
key-generation clients is not shipped as source, so every operational
definition is modelled from the specification (see the doc comment of
each such definition, which starts with `Modelled from the spec:`).

Modelling conventions:
* byte strings are `List Nat`;
* every byte of entropy ever downloaded by a client is identified by its
  offset in the lifetime download stream, so a `RandomBlock` is a span
  `[lo, lo + len)` of that stream together with the location it is
  stored in and the device secret it is encrypted under;
* authenticated decryption of a block succeeds exactly when it is
  attempted under the secret the block was encrypted under;
* the spec serialises all mutating cache operations behind a per-engine
  exclusive critical section, so a concurrent history is modelled as an
  arbitrary sequence of atomic operations (`Op` / `step` / `run`);
* the `uint64_t` counters of `CacheStatus` are modelled as `Nat`
  (overflow of a lifetime byte counter is out of scope).
-/

namespace QryptSecurity

/-- Enumeration of symmetric key modes, translated from
`enum class SymmetricKeyMode` in `qryptsecurity.h`. -/
inductive SymmetricKeyMode where
  | SYMMETRIC_KEY_MODE_AES_256
  | SYMMETRIC_KEY_MODE_OTP
  | NUM_SYMMETRIC_KEY_MODES
deriving DecidableEq, Repr

/-- Enumeration of cache states, translated from `enum class CacheState`
in `qryptsecurity.h`. -/
inductive CacheState where
  | CACHE_STATE_DOWNLOADING
  | CACHE_STATE_READY
  | NUM_CACHE_STATES
deriving DecidableEq, Repr

/-- Structure to store random location configurations, translated from
`struct LocationConfig` in `qryptsecurity.h`. -/
structure LocationConfig where
  id : String
  path : String
  availableSize : Nat
deriving DecidableEq, Repr

/-- Structure to store local random cache configurations, translated from
`struct CacheConfig` in `qryptsecurity.h`. -/
structure CacheConfig where
  deviceSecret : List Nat
  locations : List LocationConfig
  maxNumCachedBytes : Nat
  minNumCachedBytes : Nat
  maintenanceInterval : Nat
deriving DecidableEq, Repr

/-- Structure to store symmetric key data, translated from
`struct SymmetricKeyData` in `qryptsecurity.h`. -/
structure SymmetricKeyData where
  key : List Nat
  metadata : List Nat
deriving DecidableEq, Repr

/-- Structure for cache status information, translated from
`struct CacheStatus` in `qryptsecurity.h` (the two `uint64_t` fields are
modelled as `Nat`). -/
structure CacheStatus where
  state : CacheState
  remainingCapacity : Nat
  totalDownloadedRandom : Nat
deriving DecidableEq, Repr

/-- Error taxonomy of the engine, from section 7 of the spec
(`ConfigError`, `StorageError`, `SecretMismatchError`,
`InsufficientRandomError`, `CacheBusyError`). -/
inductive QryptError where
  | ConfigError
  | StorageError
  | SecretMismatchError
  | InsufficientRandomError
  | CacheBusyError
deriving DecidableEq, Repr

/-! ## The distributed key-generation client

Modelled from the spec: the implementation of
`IKeyGenDistributedClient` (`genInit` / `genSync`) is not shipped under
`src/`; only its declaration is.  Section 4.3 of the spec describes it
as a stateless client of a remote `BlastAgreementService`; the metadata
token encodes "a session/seed reference, never the key itself or raw
entropy", and `genSync` "deterministically derives the same key the
initiator holds". -/

/-- Modelled from the spec: the remote `BlastAgreementService`.  It owns
a per-session seed assignment (`seeds`) and a fresh-session counter
(`nextSession`).  The concrete seed values are the remote quantum
entropy, abstracted as an arbitrary function. -/
structure BlastService where
  seeds : Nat → List Nat
  nextSession : Nat

/-- Numeric tag of a symmetric key mode, used inside the metadata token. -/
def modeNum : SymmetricKeyMode → Nat
  | .SYMMETRIC_KEY_MODE_AES_256 => 0
  | .SYMMETRIC_KEY_MODE_OTP => 1
  | .NUM_SYMMETRIC_KEY_MODES => 2

/-- Inverse of `modeNum`, used when decoding a metadata token. -/
def modeOfNum : Nat → Option SymmetricKeyMode
  | 0 => some .SYMMETRIC_KEY_MODE_AES_256
  | 1 => some .SYMMETRIC_KEY_MODE_OTP
  | 2 => some .NUM_SYMMETRIC_KEY_MODES
  | _ => none

/-- Modelled from the spec: the key-derivation step of the opaque
`CryptoAdapter` boundary.  A deterministic pure function producing
`outLen` bytes from an input byte string. -/
def kdfBytes (outLen : Nat) (input : List Nat) : List Nat :=
  (List.range outLen).map
    (fun i => input.foldl (fun a b => (a * 131 + b + 1) % 256) (i % 256))

/-- Modelled from the spec (section 4.2 / 4.3): per-mode key derivation
from a seed of raw entropy.  For AES-256 the key size argument is
ignored and a fixed 32-byte key is derived through the key-derivation
step; for OTP the key is the first `keySize` raw seed bytes with no
derivation. -/
def deriveKey (mode : SymmetricKeyMode) (keySize : Nat) (seed : List Nat) : List Nat :=
  match mode with
  | .SYMMETRIC_KEY_MODE_AES_256 => kdfBytes 32 seed
  | .SYMMETRIC_KEY_MODE_OTP => seed.take keySize
  | .NUM_SYMMETRIC_KEY_MODES => []

/-- Metadata token layout: the session reference plus the self-describing
derivation parameters.  The seed itself never appears. -/
def encodeMeta (sid : Nat) (mode : SymmetricKeyMode) (keySize : Nat) : List Nat :=
  [sid, modeNum mode, keySize]

/-- Decoding of a metadata token; fails on a malformed token. -/
def decodeMeta : List Nat → Option (Nat × SymmetricKeyMode × Nat)
  | [sid, mn, ks] => (modeOfNum mn).map (fun m => (sid, m, ks))
  | _ => none

/-- Modelled from the spec: `IKeyGenDistributedClient::genInit`.  The
initiating side opens a fresh session with the remote service, derives
its key from the session seed, and returns the key together with the
metadata token for the other party. -/
def genInit (svc : BlastService) (mode : SymmetricKeyMode) (keySize : Nat) :
    SymmetricKeyData × BlastService :=
  let sid := svc.nextSession
  ({ key := deriveKey mode keySize (svc.seeds sid),
     metadata := encodeMeta sid mode keySize },
   { svc with nextSession := sid + 1 })

/-- Modelled from the spec: `IKeyGenDistributedClient::genSync`.  The
responding side presents the metadata token to the remote service and
deterministically re-derives the key from the referenced session seed. -/
def genSync (svc : BlastService) (metadata : List Nat) : Option (List Nat) :=
  (decodeMeta metadata).map (fun p => deriveKey p.2.1 p.2.2 (svc.seeds p.1))

lemma modeOfNum_modeNum (m : SymmetricKeyMode) : modeOfNum (modeNum m) = some m := by
  cases m <;> rfl

/-- C2: distributed round-trip agreement.  For every mode and key size,
if `genInit` on the initiating client returns the pair
`(keyA, metadata)` together with the advanced service state, then
`genSync` applied to that metadata on the responding client returns
exactly `keyA`. -/
theorem C2_genInit_genSync_roundtrip (svc : BlastService) (mode : SymmetricKeyMode)
    (keySize : Nat) :
    genSync (genInit svc mode keySize).2 (genInit svc mode keySize).1.metadata =
      some (genInit svc mode keySize).1.key := by
  simp [genInit, genSync, encodeMeta, decodeMeta, modeOfNum_modeNum]

/-- C9: metadata secrecy.  The metadata token produced by `genInit` is
independent of the session seeds (hence contains neither the key nor
the raw entropy it is derived from), and consequently no function of
the metadata alone computes the key for every service: an observer
holding only the metadata, without the remote service, cannot compute
the key. -/
theorem C9_metadata_secrecy :
    (∀ (seeds₁ seeds₂ : Nat → List Nat) (n : Nat) (mode : SymmetricKeyMode) (ks : Nat),
        (genInit ⟨seeds₁, n⟩ mode ks).1.metadata = (genInit ⟨seeds₂, n⟩ mode ks).1.metadata) ∧
    ¬ ∃ f : List Nat → List Nat,
        ∀ (svc : BlastService) (mode : SymmetricKeyMode) (ks : Nat),
          f (genInit svc mode ks).1.metadata = (genInit svc mode ks).1.key := by
  constructor
  · intro seeds₁ seeds₂ n mode ks
    rfl
  · rintro ⟨f, hf⟩
    have h1 := hf ⟨fun _ => [0], 0⟩ .SYMMETRIC_KEY_MODE_OTP 1
    have h2 := hf ⟨fun _ => [1], 0⟩ .SYMMETRIC_KEY_MODE_OTP 1
    simp only [genInit, deriveKey, encodeMeta] at h1 h2
    rw [h1] at h2
    simp at h2

/-- Witness for `C9_metadata_secrecy`: two services whose session seeds
differ everywhere still produce identical metadata tokens for the same
call. -/
theorem C9_metadata_secrecy_witness :
    (genInit ⟨fun _ => [0], 0⟩ .SYMMETRIC_KEY_MODE_OTP 1).1.metadata =
      (genInit ⟨fun _ => [1], 0⟩ .SYMMETRIC_KEY_MODE_OTP 1).1.metadata :=
  C9_metadata_secrecy.1 (fun _ => [0]) (fun _ => [1]) 0 .SYMMETRIC_KEY_MODE_OTP 1

/-! ## The local random cache engine

Modelled from the spec: the implementation of the cache engine behind
`IKeyGenLocalClient` is not shipped under `src/`; only the interface is.
Sections 3, 4.1 and 4.2 of the spec describe its data model and
operations, which the definitions below follow. -/

/-- A random block (spec section 3): a contiguous, never-reused span of
downloaded entropy, identified here by its span `[lo, lo + len)` in the
lifetime download stream, the storage location holding it, and the
device secret it is encrypted under at rest. -/
structure RandomBlock where
  locId : Nat
  lo : Nat
  len : Nat
  secret : List Nat
deriving DecidableEq, Repr

/-- The set of lifetime-stream offsets covered by a block. -/
def RandomBlock.span (b : RandomBlock) : Finset Nat :=
  Finset.Ico b.lo (b.lo + b.len)

/-- A contiguous range of lifetime-stream offsets returned by a
withdrawal. -/
structure ByteRange where
  lo : Nat
  len : Nat
deriving DecidableEq, Repr

/-- The set of offsets covered by a returned range. -/
def ByteRange.span (r : ByteRange) : Finset Nat :=
  Finset.Ico r.lo (r.lo + r.len)

/-- The set of offsets covered by a list of returned ranges. -/
def rangesSpan (rs : List ByteRange) : Finset Nat :=
  rs.foldr (fun r a => r.span ∪ a) ∅

/-- Total number of bytes covered by a list of returned ranges. -/
def rangesLen (rs : List ByteRange) : Nat :=
  (rs.map ByteRange.len).sum

/-- The decrypted byte values of a list of ranges, reading the lifetime
entropy stream `ent` at each covered offset, in withdrawal order. -/
def rangesBytes (ent : Nat → Nat) (rs : List ByteRange) : List Nat :=
  rs.foldr (fun r acc => (List.range' r.lo r.len).map ent ++ acc) []

/-- The set of offsets covered by a block inventory. -/
def blocksSpan (bs : List RandomBlock) : Finset Nat :=
  bs.foldr (fun b a => b.span ∪ a) ∅

/-- Total number of usable bytes in a block inventory. -/
def sumLen (bs : List RandomBlock) : Nat :=
  (bs.map RandomBlock.len).sum

/-- Modelled from the spec: the full state of one `RandomCacheEngine`:
the current device secret, the block inventory ordered oldest first, the
lifetime counter of bytes ever downloaded, the two capacity thresholds
from `CacheConfig`, and the advisory cache state. -/
structure EngineState where
  secret : List Nat
  blocks : List RandomBlock
  totalDownloaded : Nat
  minNumCachedBytes : Nat
  maxNumCachedBytes : Nat
  cstate : CacheState
deriving DecidableEq, Repr

/-- Aggregate usable bytes across all locations of an engine. -/
def usable (s : EngineState) : Nat := sumLen s.blocks

/-- Modelled from the spec: the engine state right after
`initializeAsync(token, config)`: empty inventory, zero lifetime
counter, advisory state `CACHE_STATE_DOWNLOADING`. -/
def initState (cfg : CacheConfig) : EngineState :=
  { secret := cfg.deviceSecret
    blocks := []
    totalDownloaded := 0
    minNumCachedBytes := cfg.minNumCachedBytes
    maxNumCachedBytes := cfg.maxNumCachedBytes
    cstate := .CACHE_STATE_DOWNLOADING }

/-- Modelled from the spec: the block-selection core of
`withdraw(numBytes)`.  Blocks are consumed oldest first; each selected
block is authenticated-decrypted under `sec` (failing with
`SecretMismatchError` on a mismatch); if the last selected block is
larger than needed it is split, the consumed prefix is returned and the
remainder block is kept; if the inventory runs out first the whole
withdrawal fails with `InsufficientRandomError`. -/
def withdrawBlocks (sec : List Nat) :
    List RandomBlock → Nat → Except QryptError (List ByteRange × List RandomBlock)
  | bs, 0 => .ok ([], bs)
  | [], _ + 1 => .error .InsufficientRandomError
  | b :: bs, n + 1 =>
    if b.secret = sec then
      if b.len ≤ n + 1 then
        match withdrawBlocks sec bs (n + 1 - b.len) with
        | .ok (rs, rest) => .ok (⟨b.lo, b.len⟩ :: rs, rest)
        | .error e => .error e
      else
        .ok ([⟨b.lo, n + 1⟩],
             ⟨b.locId, b.lo + (n + 1), b.len - (n + 1), b.secret⟩ :: bs)
    else
      .error .SecretMismatchError

/-- Modelled from the spec: `withdraw(numBytes)` decrypting under an
explicit secret `sec`.  On success the consumed ranges are removed from
the inventory and the advisory state drops to
`CACHE_STATE_DOWNLOADING` when the remaining usable bytes fall below
`minNumCachedBytes`; on error the state is left untouched by the
caller. -/
def withdrawWith (sec : List Nat) (s : EngineState) (n : Nat) :
    Except QryptError (List ByteRange × EngineState) :=
  match withdrawBlocks sec s.blocks n with
  | .error e => .error e
  | .ok (rs, rest) =>
    .ok (rs,
      { s with
        blocks := rest
        cstate :=
          if sumLen rest < s.minNumCachedBytes then .CACHE_STATE_DOWNLOADING
          else s.cstate })

/-- Modelled from the spec: the internal `withdraw(numBytes)` primitive,
decrypting under the currently configured device secret. -/
def withdraw (s : EngineState) (n : Nat) :
    Except QryptError (List ByteRange × EngineState) :=
  withdrawWith s.secret s n

/-- Modelled from the spec: one maintenance-cycle download that received
`received` fresh entropy bytes from the external source (partial
results tolerated), capped so the cache is only topped up toward
`maxNumCachedBytes`.  The new bytes are carved from the lifetime stream
at the current counter, encrypted under the current device secret, and
stored as a new youngest block at location `loc`; the advisory state
becomes `CACHE_STATE_READY` once usable bytes reach
`minNumCachedBytes`. -/
def maintenance (s : EngineState) (loc : Nat) (received : Nat) : EngineState :=
  let amount := min received (s.maxNumCachedBytes - usable s)
  let blocks := s.blocks ++ [⟨loc, s.totalDownloaded, amount, s.secret⟩]
  { s with
    blocks := blocks
    totalDownloaded := s.totalDownloaded + amount
    cstate :=
      if s.minNumCachedBytes ≤ sumLen blocks then .CACHE_STATE_READY
      else s.cstate }

/-- Modelled from the spec: `updateDeviceSecret(old, new)`.  Every
existing block is decrypted under `old`; if any block fails to decrypt
the whole operation aborts with `SecretMismatchError` with no block yet
rewritten; otherwise every block is re-encrypted under `new` and the
configured secret becomes `new`. -/
def updateDeviceSecret (s : EngineState) (old new : List Nat) :
    Except QryptError EngineState :=
  if ∀ b ∈ s.blocks, b.secret = old then
    .ok { s with
          secret := new
          blocks := s.blocks.map (fun b => { b with secret := new }) }
  else .error .SecretMismatchError

/-- Modelled from the spec: `wipe()`.  Securely erases every block from
every location and resets the advisory state to
`CACHE_STATE_DOWNLOADING`; the lifetime download counter is untouched. -/
def wipeEngine (s : EngineState) : EngineState :=
  { s with blocks := [], cstate := .CACHE_STATE_DOWNLOADING }

/-- Modelled from the spec: `checkCacheStatus()`, a read-only snapshot
of the advisory state, the aggregate usable bytes, and the lifetime
download counter. -/
def checkCacheStatus (s : EngineState) : CacheStatus :=
  { state := s.cstate
    remainingCapacity := usable s
    totalDownloadedRandom := s.totalDownloaded }

/-- Number of bytes `genSymmetricKey` withdraws for a mode: a fixed
32-byte withdrawal for AES-256 (the key size argument is ignored), the
requested key size for OTP. -/
def withdrawSize (mode : SymmetricKeyMode) (keySize : Nat) : Nat :=
  match mode with
  | .SYMMETRIC_KEY_MODE_AES_256 => 32
  | .SYMMETRIC_KEY_MODE_OTP => keySize
  | .NUM_SYMMETRIC_KEY_MODES => 0

/-- Post-withdrawal processing of `genSymmetricKey`: AES-256 passes the
withdrawn bytes through the key-derivation step; OTP returns the raw
withdrawn entropy unchanged. -/
def postprocess (mode : SymmetricKeyMode) (raw : List Nat) : List Nat :=
  match mode with
  | .SYMMETRIC_KEY_MODE_AES_256 => kdfBytes 32 raw
  | .SYMMETRIC_KEY_MODE_OTP => raw
  | .NUM_SYMMETRIC_KEY_MODES => raw

/-- Modelled from the spec: `IKeyGenLocalClient::genSymmetricKey(mode,
keySize)` over an engine whose decrypted entropy stream is `ent`:
withdraw `withdrawSize mode keySize` bytes, then apply the per-mode
post-processing. -/
def genSymmetricKey (ent : Nat → Nat) (s : EngineState) (mode : SymmetricKeyMode)
    (keySize : Nat) : Except QryptError (List Nat × EngineState) :=
  match withdraw s (withdrawSize mode keySize) with
  | .error e => .error e
  | .ok (rs, s') => .ok (postprocess mode (rangesBytes ent rs), s')

/-! ## Trace semantics

The spec serialises every mutating operation behind the per-engine
critical section, so any history of concurrent calls is an arbitrary
interleaving, i.e. a sequence of atomic operations. -/

/-- One atomic engine operation. -/
inductive Op where
  | maint (loc received : Nat)
  | withdrawOp (n : Nat)
  | genSym (mode : SymmetricKeyMode) (keySize : Nat)
  | updateSecret (old new : List Nat)
  | wipeOp
deriving Repr

/-- One atomic step of the engine.  Returns the successor state and, for
a successful withdrawal, the ranges it returned; an operation that
fails leaves the state unchanged. -/
def step (s : EngineState) : Op → EngineState × Option (List ByteRange)
  | .maint loc r => (maintenance s loc r, none)
  | .withdrawOp n =>
    match withdraw s n with
    | .ok (rs, s') => (s', some rs)
    | .error _ => (s, none)
  | .genSym mode k =>
    match withdraw s (withdrawSize mode k) with
    | .ok (rs, s') => (s', some rs)
    | .error _ => (s, none)
  | .updateSecret old new =>
    match updateDeviceSecret s old new with
    | .ok s' => (s', none)
    | .error _ => (s, none)
  | .wipeOp => (wipeEngine s, none)

/-- Run a sequence of operations, collecting the offset set returned by
each successful withdrawal, in order. -/
def run (s : EngineState) : List Op → EngineState × List (Finset Nat)
  | [] => (s, [])
  | op :: ops =>
    let p := step s op
    let q := run p.1 ops
    (q.1, (match p.2 with | some rs => [rangesSpan rs] | none => []) ++ q.2)

/-! ## Basic lemmas about the cache model -/

lemma sumLen_nil : sumLen [] = 0 := rfl

lemma sumLen_cons (b : RandomBlock) (bs : List RandomBlock) :
    sumLen (b :: bs) = b.len + sumLen bs := by
  simp [sumLen]

lemma sumLen_append (bs cs : List RandomBlock) :
    sumLen (bs ++ cs) = sumLen bs + sumLen cs := by
  simp [sumLen]

lemma blocksSpan_nil : blocksSpan [] = ∅ := rfl

lemma blocksSpan_cons (b : RandomBlock) (bs : List RandomBlock) :
    blocksSpan (b :: bs) = b.span ∪ blocksSpan bs := rfl

lemma blocksSpan_append (bs cs : List RandomBlock) :
    blocksSpan (bs ++ cs) = blocksSpan bs ∪ blocksSpan cs := by
  induction bs with
  | nil => simp [blocksSpan_nil, blocksSpan_cons]
  | cons b bs ih => simp [blocksSpan_cons, ih, Finset.union_assoc]

lemma rangesSpan_nil : rangesSpan [] = ∅ := rfl

lemma rangesSpan_cons (r : ByteRange) (rs : List ByteRange) :
    rangesSpan (r :: rs) = r.span ∪ rangesSpan rs := rfl

lemma rangesLen_nil : rangesLen [] = 0 := rfl

lemma rangesLen_cons (r : ByteRange) (rs : List ByteRange) :
    rangesLen (r :: rs) = r.len + rangesLen rs := by
  simp [rangesLen]

lemma disjoint_blocksSpan_right {x : Finset Nat} {bs : List RandomBlock} :
    Disjoint x (blocksSpan bs) ↔ ∀ b ∈ bs, Disjoint x b.span := by
  induction bs with
  | nil => simp [blocksSpan_nil]
  | cons b bs ih => simp [blocksSpan_cons, Finset.disjoint_union_right, ih]

lemma withdrawWith_eq_ok {sec : List Nat} {s : EngineState} {n : Nat}
    {rs : List ByteRange} {rest : List RandomBlock}
    (h : withdrawBlocks sec s.blocks n = .ok (rs, rest)) :
    withdrawWith sec s n = .ok (rs,
      { s with
        blocks := rest
        cstate :=
          if sumLen rest < s.minNumCachedBytes then .CACHE_STATE_DOWNLOADING
          else s.cstate }) := by
  simp [withdrawWith, h]

lemma withdrawWith_eq_error {sec : List Nat} {s : EngineState} {n : Nat}
    {e : QryptError} (h : withdrawBlocks sec s.blocks n = .error e) :
    withdrawWith sec s n = .error e := by
  simp [withdrawWith, h]

lemma withdraw_ok_elim {s : EngineState} {n : Nat} {rs : List ByteRange}
    {s' : EngineState} (h : withdraw s n = .ok (rs, s')) :
    withdrawBlocks s.secret s.blocks n = .ok (rs, s'.blocks) ∧
    s' = { s with
           blocks := s'.blocks
           cstate :=
             if sumLen s'.blocks < s.minNumCachedBytes then .CACHE_STATE_DOWNLOADING
             else s.cstate } := by
  unfold withdraw at h
  cases hw : withdrawBlocks s.secret s.blocks n with
  | error e => rw [withdrawWith_eq_error hw] at h; exact absurd h (by simp)
  | ok p =>
    obtain ⟨rs', rest⟩ := p
    rw [withdrawWith_eq_ok hw] at h
    obtain ⟨h1, h2⟩ := by simpa using h
    subst h1
    subst h2
    exact ⟨rfl, rfl⟩

/-- The lifetime download counter never decreases in one atomic step. -/
lemma step_total_le (s : EngineState) (op : Op) :
    s.totalDownloaded ≤ (step s op).1.totalDownloaded := by
  cases op with
  | maint loc r => simp [step, maintenance]
  | withdrawOp n =>
    dsimp [step]
    cases hw : withdraw s n with
    | error e => simp
    | ok p =>
      obtain ⟨rs, s'⟩ := p
      have := (withdraw_ok_elim hw).2
      simp only
      rw [this]
  | genSym mode k =>
    dsimp [step]
    cases hw : withdraw s (withdrawSize mode k) with
    | error e => simp
    | ok p =>
      obtain ⟨rs, s'⟩ := p
      have := (withdraw_ok_elim hw).2
      simp only
      rw [this]
  | updateSecret old new =>
    dsimp [step]
    cases hu : updateDeviceSecret s old new with
    | error e => simp
    | ok s' =>
      simp only
      unfold updateDeviceSecret at hu
      split at hu
      · obtain rfl := by simpa using hu
        exact Nat.le_refl _
      · exact absurd hu (by simp)
  | wipeOp => simp [step, wipeEngine]

/-- C6: the `totalDownloadedRandom` counter reported by
`checkCacheStatus` is monotonically non-decreasing across every
sequence of engine operations (withdrawals, maintenance, device-secret
updates and wipes): after running any operation sequence from any
state, the reported counter is at least the counter before. -/
theorem C6_totalDownloadedRandom_monotone (s : EngineState) (ops : List Op) :
    (checkCacheStatus s).totalDownloadedRandom ≤
      (checkCacheStatus (run s ops).1).totalDownloadedRandom := by
  induction ops generalizing s with
  | nil => simp [run, checkCacheStatus]
  | cons op ops ih =>
    simp only [run, checkCacheStatus]
    calc s.totalDownloaded ≤ (step s op).1.totalDownloaded := step_total_le s op
      _ ≤ ((run (step s op).1 ops).1).totalDownloaded := ih (step s op).1

/-- C7: after `wipe()` the cache status reports zero remaining capacity
and state `CACHE_STATE_DOWNLOADING`, and no random block that existed
before the wipe remains in any storage location. -/
theorem C7_post_wipe (s : EngineState) :
    (checkCacheStatus (wipeEngine s)).remainingCapacity = 0 ∧
    (checkCacheStatus (wipeEngine s)).state = .CACHE_STATE_DOWNLOADING ∧
    ∀ b ∈ s.blocks, b ∉ (wipeEngine s).blocks := by
  refine ⟨rfl, rfl, ?_⟩
  intro b _hb
  simp [wipeEngine]

/-- Concrete engine state used to witness `C7_post_wipe`. -/
def wipeWitState : EngineState :=
  { secret := []
    blocks := [⟨0, 0, 8, []⟩]
    totalDownloaded := 8
    minNumCachedBytes := 4
    maxNumCachedBytes := 16
    cstate := .CACHE_STATE_READY }

/-- Witness for `C7_post_wipe` at a concrete non-empty engine state. -/
theorem C7_post_wipe_witness :
    (checkCacheStatus (wipeEngine wipeWitState)).remainingCapacity = 0 ∧
    (checkCacheStatus (wipeEngine wipeWitState)).state = .CACHE_STATE_DOWNLOADING ∧
    (⟨0, 0, 8, []⟩ : RandomBlock) ∉ (wipeEngine wipeWitState).blocks :=
  ⟨(C7_post_wipe wipeWitState).1, (C7_post_wipe wipeWitState).2.1,
   (C7_post_wipe wipeWitState).2.2 ⟨0, 0, 8, []⟩ (by decide)⟩

/-- C8: the cache state machine.  The initial state after
`initializeAsync` is `CACHE_STATE_DOWNLOADING`; a maintenance cycle
that brings aggregate usable bytes to at least `minNumCachedBytes`
puts the state at `CACHE_STATE_READY`; and a withdrawal that both
succeeds and drops aggregate usable bytes below `minNumCachedBytes`
returns the state to `CACHE_STATE_DOWNLOADING` (the withdrawal itself
still succeeding: its hypothesis is a successful result). -/
theorem C8_cache_state_machine (cfg : CacheConfig) :
    (initState cfg).cstate = .CACHE_STATE_DOWNLOADING ∧
    (∀ (s : EngineState) (loc r : Nat),
        s.minNumCachedBytes ≤ usable (maintenance s loc r) →
        (maintenance s loc r).cstate = .CACHE_STATE_READY) ∧
    (∀ (s : EngineState) (n : Nat) (rs : List ByteRange) (s' : EngineState),
        withdraw s n = .ok (rs, s') →
        usable s' < s.minNumCachedBytes →
        s'.cstate = .CACHE_STATE_DOWNLOADING) := by
  refine ⟨rfl, ?_, ?_⟩
  · intro s loc r h
    simp only [maintenance, usable] at h ⊢
    rw [if_pos h]
  · intro s n rs s' h hlt
    have h2 := (withdraw_ok_elim h).2
    have hb : usable s' = sumLen s'.blocks := rfl
    rw [h2]
    simp only
    rw [if_pos (by rw [hb] at hlt; exact hlt)]

/-- Concrete configuration from the worked example of the spec, used to
witness `C8_cache_state_machine`. -/
def cfgW : CacheConfig :=
  { deviceSecret := []
    locations := []
    maxNumCachedBytes := 5000
    minNumCachedBytes := 1000
    maintenanceInterval := 60 }

/-- The witness state after maintenance injects 1200 bytes. -/
def sW1 : EngineState := maintenance (initState cfgW) 0 1200

/-- The witness state after withdrawing 800 of the 1200 bytes. -/
def sW2 : EngineState :=
  { secret := []
    blocks := [⟨0, 800, 400, []⟩]
    totalDownloaded := 1200
    minNumCachedBytes := 1000
    maxNumCachedBytes := 5000
    cstate := .CACHE_STATE_DOWNLOADING }

/-- Witness for `C8_cache_state_machine` on the spec example: start
empty with thresholds 1000/5000 (DOWNLOADING), add 1200 bytes (READY),
withdraw 800 bytes successfully leaving 400 (back to DOWNLOADING). -/
theorem C8_cache_state_machine_witness :
    (initState cfgW).cstate = .CACHE_STATE_DOWNLOADING ∧
    sW1.cstate = .CACHE_STATE_READY ∧
    sW2.cstate = .CACHE_STATE_DOWNLOADING :=
  ⟨(C8_cache_state_machine cfgW).1,
   (C8_cache_state_machine cfgW).2.1 (initState cfgW) 0 1200 (by decide),
   (C8_cache_state_machine cfgW).2.2 sW1 800 [⟨0, 800⟩] sW2 rfl (by decide)⟩

/-! ## Sufficiency and insufficiency of the inventory for a withdrawal -/

lemma withdrawBlocks_insufficient (sec : List Nat) (bs : List RandomBlock) (n : Nat)
    (hsec : ∀ b ∈ bs, b.secret = sec) (h : sumLen bs < n) :
    withdrawBlocks sec bs n = .error .InsufficientRandomError := by
  induction bs generalizing n with
  | nil =>
    cases n with
    | zero => simp [sumLen_nil] at h
    | succ m => rfl
  | cons b bs ih =>
    cases n with
    | zero => omega
    | succ m =>
      have hb : b.secret = sec := hsec b (by simp)
      rw [sumLen_cons] at h
      have hlen : b.len ≤ m + 1 := by omega
      have hr := ih (m + 1 - b.len)
        (fun b' hb' => hsec b' (List.mem_cons_of_mem b hb')) (by omega)
      simp only [withdrawBlocks]
      rw [if_pos hb, if_pos hlen, hr]

lemma withdrawBlocks_sufficient (sec : List Nat) (bs : List RandomBlock) (n : Nat)
    (hsec : ∀ b ∈ bs, b.secret = sec) (h : n ≤ sumLen bs) :
    ∃ rs rest, withdrawBlocks sec bs n = .ok (rs, rest) := by
  induction bs generalizing n with
  | nil =>
    cases n with
    | zero => exact ⟨[], [], rfl⟩
    | succ m => simp [sumLen_nil] at h
  | cons b bs ih =>
    cases n with
    | zero => exact ⟨[], b :: bs, rfl⟩
    | succ m =>
      have hb : b.secret = sec := hsec b (by simp)
      rw [sumLen_cons] at h
      by_cases hlen : b.len ≤ m + 1
      · obtain ⟨rs, rest, hr⟩ :=
          ih (m + 1 - b.len)
            (fun b' hb' => hsec b' (List.mem_cons_of_mem b hb')) (by omega)
        refine ⟨⟨b.lo, b.len⟩ :: rs, rest, ?_⟩
        simp only [withdrawBlocks]
        rw [if_pos hb, if_pos hlen, hr]
      · refine ⟨[⟨b.lo, m + 1⟩],
          ⟨b.locId, b.lo + (m + 1), b.len - (m + 1), b.secret⟩ :: bs, ?_⟩
        simp only [withdrawBlocks]
        rw [if_pos hb, if_neg hlen]

/-- Structure of a successful block selection: the returned ranges
cover exactly `n` bytes, the usable inventory shrinks by exactly `n`,
the returned offsets together with the surviving inventory partition
the previous inventory, and (when the previous inventory was pairwise
disjoint) the returned offsets are disjoint from the surviving
inventory, which stays pairwise disjoint. -/
lemma withdrawBlocks_ok_spec (sec : List Nat) (bs : List RandomBlock) (n : Nat)
    (rs : List ByteRange) (rest : List RandomBlock)
    (h : withdrawBlocks sec bs n = .ok (rs, rest)) :
    rangesLen rs = n ∧ sumLen rest + n = sumLen bs ∧
    rangesSpan rs ∪ blocksSpan rest = blocksSpan bs ∧
    (List.Pairwise (fun a b : RandomBlock => Disjoint a.span b.span) bs →
      Disjoint (rangesSpan rs) (blocksSpan rest) ∧
      List.Pairwise (fun a b : RandomBlock => Disjoint a.span b.span) rest) := by
  induction bs generalizing n rs rest with
  | nil =>
    cases n with
    | zero =>
      simp only [withdrawBlocks] at h
      rw [Except.ok.injEq, Prod.mk.injEq] at h
      obtain ⟨h1, h2⟩ := h
      subst h1; subst h2
      simp [rangesLen_nil, rangesSpan_nil]
    | succ m => exact absurd h (by simp [withdrawBlocks])
  | cons b bs ih =>
    cases n with
    | zero =>
      simp only [withdrawBlocks] at h
      rw [Except.ok.injEq, Prod.mk.injEq] at h
      obtain ⟨h1, h2⟩ := h
      subst h1; subst h2
      refine ⟨rfl, rfl, by simp [rangesSpan_nil], ?_⟩
      intro hp
      exact ⟨by simp [rangesSpan_nil], hp⟩
    | succ m =>
      simp only [withdrawBlocks] at h
      by_cases hb : b.secret = sec
      · rw [if_pos hb] at h
        by_cases hlen : b.len ≤ m + 1
        · rw [if_pos hlen] at h
          cases hr : withdrawBlocks sec bs (m + 1 - b.len) with
          | error e => rw [hr] at h; exact absurd h (by simp)
          | ok p =>
            obtain ⟨rs', rest'⟩ := p
            rw [hr] at h
            rw [Except.ok.injEq, Prod.mk.injEq] at h
            obtain ⟨h1, h2⟩ := h
            subst h1; subst h2
            obtain ⟨ihlen, ihsum, ihspan, ihdisj⟩ := ih (m + 1 - b.len) rs' rest' hr
            have hbr : (⟨b.lo, b.len⟩ : ByteRange).span = b.span := rfl
            refine ⟨?_, ?_, ?_, ?_⟩
            · rw [rangesLen_cons, ihlen]
              show b.len + (m + 1 - b.len) = m + 1
              omega
            · rw [sumLen_cons]; omega
            · rw [rangesSpan_cons, hbr, Finset.union_assoc, ihspan, blocksSpan_cons]
            · intro hp
              rw [List.pairwise_cons] at hp
              obtain ⟨hbd, hbs⟩ := hp
              obtain ⟨hd, hp'⟩ := ihdisj hbs
              have hbbs : Disjoint b.span (blocksSpan bs) :=
                disjoint_blocksSpan_right.mpr hbd
              have hsub : blocksSpan rest' ⊆ blocksSpan bs := by
                rw [← ihspan]; exact Finset.subset_union_right
              refine ⟨?_, hp'⟩
              rw [rangesSpan_cons, hbr, Finset.disjoint_union_left]
              exact ⟨hbbs.mono_right hsub, hd⟩
        · rw [if_neg hlen] at h
          rw [Except.ok.injEq, Prod.mk.injEq] at h
          obtain ⟨h1, h2⟩ := h
          subst h1; subst h2
          have hend : b.lo + (m + 1) + (b.len - (m + 1)) = b.lo + b.len := by omega
          refine ⟨?_, ?_, ?_, ?_⟩
          · simp [rangesLen_cons, rangesLen_nil]
          · rw [sumLen_cons, sumLen_cons]
            show b.len - (m + 1) + sumLen bs + (m + 1) = b.len + sumLen bs
            omega
          · rw [rangesSpan_cons, rangesSpan_nil, blocksSpan_cons, blocksSpan_cons]
            show Finset.Ico b.lo (b.lo + (m + 1)) ∪ ∅ ∪
                (Finset.Ico (b.lo + (m + 1)) (b.lo + (m + 1) + (b.len - (m + 1))) ∪
                  blocksSpan bs) = Finset.Ico b.lo (b.lo + b.len) ∪ blocksSpan bs
            rw [hend, Finset.union_empty, ← Finset.union_assoc,
              Finset.Ico_union_Ico_eq_Ico (by omega) (by omega)]
          · intro hp
            rw [List.pairwise_cons] at hp
            obtain ⟨hbd, hbs⟩ := hp
            have hsplit : (⟨b.locId, b.lo + (m + 1), b.len - (m + 1), b.secret⟩ :
                RandomBlock).span ⊆ b.span := by
              show Finset.Ico (b.lo + (m + 1)) (b.lo + (m + 1) + (b.len - (m + 1))) ⊆
                Finset.Ico b.lo (b.lo + b.len)
              rw [hend]
              exact Finset.Ico_subset_Ico (by omega) (by omega)
            have hrsub : (⟨b.lo, m + 1⟩ : ByteRange).span ⊆ b.span := by
              show Finset.Ico b.lo (b.lo + (m + 1)) ⊆ Finset.Ico b.lo (b.lo + b.len)
              exact Finset.Ico_subset_Ico (by omega) (by omega)
            constructor
            · rw [rangesSpan_cons, rangesSpan_nil, Finset.union_empty, blocksSpan_cons,
                Finset.disjoint_union_right]
              constructor
              · show Disjoint (Finset.Ico b.lo (b.lo + (m + 1)))
                  (Finset.Ico (b.lo + (m + 1)) (b.lo + (m + 1) + (b.len - (m + 1))))
                exact Finset.Ico_disjoint_Ico_consecutive _ _ _
              · exact (disjoint_blocksSpan_right.mpr hbd).mono_left hrsub
            · rw [List.pairwise_cons]
              refine ⟨?_, hbs⟩
              intro b' hb'
              exact (hbd b' hb').mono_left hsplit
      · rw [if_neg hb] at h
        exact absurd h (by simp)

/-- C4: withdrawal failure condition.  On an engine whose blocks all
decrypt under the configured device secret, a withdrawal of `n` bytes
fails with `InsufficientRandomError` exactly when the aggregate usable
bytes are below `n`; in that case the engine step leaves the state
completely unchanged and reports no result (the error is never
resolved automatically); and a successful withdrawal only ever returns
offsets of bytes presently in the inventory (never previously
withdrawn bytes). -/
theorem C4_insufficient_random_iff (s : EngineState) (n : Nat)
    (hsec : ∀ b ∈ s.blocks, b.secret = s.secret) :
    (withdraw s n = .error .InsufficientRandomError ↔ usable s < n) ∧
    (usable s < n → step s (.withdrawOp n) = (s, none)) ∧
    (∀ rs s', withdraw s n = .ok (rs, s') → rangesSpan rs ⊆ blocksSpan s.blocks) := by
  have herr : usable s < n → withdraw s n = .error .InsufficientRandomError := by
    intro h
    unfold withdraw
    exact withdrawWith_eq_error (withdrawBlocks_insufficient s.secret s.blocks n hsec h)
  refine ⟨⟨?_, herr⟩, ?_, ?_⟩
  · intro h
    by_contra hn
    push_neg at hn
    obtain ⟨rs, rest, hr⟩ := withdrawBlocks_sufficient s.secret s.blocks n hsec hn
    rw [withdraw, withdrawWith_eq_ok hr] at h
    exact absurd h (by simp)
  · intro h
    simp [step, herr h]
  · intro rs s' h
    have h1 := (withdraw_ok_elim h).1
    have := (withdrawBlocks_ok_spec s.secret s.blocks n rs s'.blocks h1).2.2.1
    rw [← this]
    exact Finset.subset_union_left

/-- Concrete engine state used to witness `C4_insufficient_random_iff`:
one 4-byte block, all under the configured secret. -/
def s4W : EngineState :=
  { secret := []
    blocks := [⟨0, 0, 4, []⟩]
    totalDownloaded := 4
    minNumCachedBytes := 2
    maxNumCachedBytes := 8
    cstate := .CACHE_STATE_READY }

/-- The state left by withdrawing 3 of the 4 bytes of `s4W`. -/
def s4Wa : EngineState :=
  { secret := []
    blocks := [⟨0, 3, 1, []⟩]
    totalDownloaded := 4
    minNumCachedBytes := 2
    maxNumCachedBytes := 8
    cstate := .CACHE_STATE_DOWNLOADING }

/-- Witness for `C4_insufficient_random_iff`: withdrawing 10 bytes from
a 4-byte inventory fails with `InsufficientRandomError` and changes
nothing, while withdrawing 3 bytes succeeds and returns only offsets
currently in the inventory. -/
theorem C4_insufficient_random_iff_witness :
    withdraw s4W 10 = .error .InsufficientRandomError ∧
    step s4W (.withdrawOp 10) = (s4W, none) ∧
    rangesSpan [⟨0, 3⟩] ⊆ blocksSpan s4W.blocks :=
  ⟨((C4_insufficient_random_iff s4W 10 (by decide)).1).mpr (by decide),
   (C4_insufficient_random_iff s4W 10 (by decide)).2.1 (by decide),
   (C4_insufficient_random_iff s4W 3 (by decide)).2.2 [⟨0, 3⟩] s4Wa rfl⟩

/-! ## Key shapes of genSymmetricKey -/

lemma rangesBytes_cons (ent : Nat → Nat) (r : ByteRange) (rs : List ByteRange) :
    rangesBytes ent (r :: rs) = (List.range' r.lo r.len).map ent ++ rangesBytes ent rs :=
  rfl

lemma rangesBytes_length (ent : Nat → Nat) (rs : List ByteRange) :
    (rangesBytes ent rs).length = rangesLen rs := by
  induction rs with
  | nil => rfl
  | cons r rs ih =>
    rw [rangesBytes_cons, rangesLen_cons, List.length_append, List.length_map,
      List.length_range', ih]

lemma kdfBytes_length (outLen : Nat) (input : List Nat) :
    (kdfBytes outLen input).length = outLen := by
  simp [kdfBytes]

/-- C3: per-mode `keySize` semantics of `genSymmetricKey`.  In AES-256
mode the `keySize` argument is ignored (the call gives literally the
same result for every `keySize`), and a successful call withdraws a
fixed 32 bytes and returns the 32-byte output of the key-derivation
step applied to them.  In OTP mode a successful call with `keySize = k`
withdraws exactly `k` bytes and returns those raw withdrawn bytes with
no derivation, so the key has length `k`. -/
theorem C3_genSymmetricKey_mode_semantics (ent : Nat → Nat) (s : EngineState)
    (k k' : Nat) :
    genSymmetricKey ent s .SYMMETRIC_KEY_MODE_AES_256 k =
      genSymmetricKey ent s .SYMMETRIC_KEY_MODE_AES_256 k' ∧
    (∀ key s', genSymmetricKey ent s .SYMMETRIC_KEY_MODE_AES_256 k = .ok (key, s') →
      ∃ rs, withdraw s 32 = .ok (rs, s') ∧ rangesLen rs = 32 ∧
        key = kdfBytes 32 (rangesBytes ent rs) ∧ key.length = 32) ∧
    (∀ key s', genSymmetricKey ent s .SYMMETRIC_KEY_MODE_OTP k = .ok (key, s') →
      ∃ rs, withdraw s k = .ok (rs, s') ∧ key = rangesBytes ent rs ∧
        key.length = k) := by
  refine ⟨rfl, ?_, ?_⟩
  · intro key s' h
    unfold genSymmetricKey at h
    cases hw : withdraw s (withdrawSize .SYMMETRIC_KEY_MODE_AES_256 k) with
    | error e => rw [hw] at h; exact absurd h (by simp)
    | ok p =>
      obtain ⟨rs, s''⟩ := p
      rw [hw] at h
      rw [Except.ok.injEq, Prod.mk.injEq] at h
      obtain ⟨h1, h2⟩ := h
      subst h1; subst h2
      have hwb := (withdraw_ok_elim hw).1
      have hlen := (withdrawBlocks_ok_spec s.secret s.blocks _ rs _ hwb).1
      exact ⟨rs, hw, hlen, rfl, kdfBytes_length 32 _⟩
  · intro key s' h
    unfold genSymmetricKey at h
    cases hw : withdraw s (withdrawSize .SYMMETRIC_KEY_MODE_OTP k) with
    | error e => rw [hw] at h; exact absurd h (by simp)
    | ok p =>
      obtain ⟨rs, s''⟩ := p
      rw [hw] at h
      rw [Except.ok.injEq, Prod.mk.injEq] at h
      obtain ⟨h1, h2⟩ := h
      subst h1; subst h2
      have hwb := (withdraw_ok_elim hw).1
      have hlen := (withdrawBlocks_ok_spec s.secret s.blocks _ rs _ hwb).1
      refine ⟨rs, hw, rfl, ?_⟩
      show (rangesBytes ent rs).length = k
      rw [rangesBytes_length]
      exact hlen

/-- Concrete entropy stream used by the `C3` witness. -/
def entW : Nat → Nat := fun n => n % 256

/-- Concrete engine state used to witness
`C3_genSymmetricKey_mode_semantics`: one 40-byte block. -/
def s3W : EngineState :=
  { secret := []
    blocks := [⟨0, 0, 40, []⟩]
    totalDownloaded := 40
    minNumCachedBytes := 1
    maxNumCachedBytes := 64
    cstate := .CACHE_STATE_READY }

/-- The state left by the 32-byte AES-256 withdrawal from `s3W`. -/
def s3Wa : EngineState :=
  { secret := []
    blocks := [⟨0, 32, 8, []⟩]
    totalDownloaded := 40
    minNumCachedBytes := 1
    maxNumCachedBytes := 64
    cstate := .CACHE_STATE_READY }

/-- The state left by a 4-byte OTP withdrawal from `s3W`. -/
def s3Wb : EngineState :=
  { secret := []
    blocks := [⟨0, 4, 36, []⟩]
    totalDownloaded := 40
    minNumCachedBytes := 1
    maxNumCachedBytes := 64
    cstate := .CACHE_STATE_READY }

/-- The AES-256 key produced from `s3W`. -/
def keyW : List Nat := kdfBytes 32 (rangesBytes entW [⟨0, 32⟩])

/-- The 4-byte OTP key produced from `s3W`. -/
def keyOW : List Nat := rangesBytes entW [⟨0, 4⟩]

/-- Witness for `C3_genSymmetricKey_mode_semantics` on a concrete
40-byte inventory: AES-256 calls with key sizes 5 and 99 agree, the
AES key is the 32-byte derivation of the first 32 withdrawn bytes, and
an OTP call with key size 4 returns the 4 raw withdrawn bytes. -/
theorem C3_genSymmetricKey_mode_semantics_witness :
    (genSymmetricKey entW s3W .SYMMETRIC_KEY_MODE_AES_256 5 =
       genSymmetricKey entW s3W .SYMMETRIC_KEY_MODE_AES_256 99) ∧
    (∃ rs, withdraw s3W 32 = .ok (rs, s3Wa) ∧ rangesLen rs = 32 ∧
       keyW = kdfBytes 32 (rangesBytes entW rs) ∧ keyW.length = 32) ∧
    (∃ rs, withdraw s3W 4 = .ok (rs, s3Wb) ∧ keyOW = rangesBytes entW rs ∧
       keyOW.length = 4) :=
  ⟨(C3_genSymmetricKey_mode_semantics entW s3W 5 99).1,
   (C3_genSymmetricKey_mode_semantics entW s3W 5 99).2.1 keyW s3Wa rfl,
   (C3_genSymmetricKey_mode_semantics entW s3W 4 4).2.2 keyOW s3Wb rfl⟩

/-! ## Device-secret rotation -/

/-- C5: the `updateDeviceSecret(old, new)` contract.  If some existing
block does not decrypt under `old`, the whole operation fails with
`SecretMismatchError` and the engine state is completely unchanged (no
block rewritten).  On success, every block is re-encrypted under
`new`; a subsequent withdrawal decrypting under `new` succeeds
(whenever the inventory suffices), and a non-empty withdrawal
attempted under the retired `old` secret fails with
`SecretMismatchError`. -/
theorem C5_updateDeviceSecret_contract (s : EngineState) (old new : List Nat) :
    ((∃ b ∈ s.blocks, b.secret ≠ old) →
        updateDeviceSecret s old new = .error .SecretMismatchError ∧
        step s (.updateSecret old new) = (s, none)) ∧
    (∀ s', updateDeviceSecret s old new = .ok s' →
        (∀ b ∈ s'.blocks, b.secret = new) ∧
        (∀ n, n ≤ usable s' → ∃ rs s'', withdrawWith new s' n = .ok (rs, s'')) ∧
        (s'.blocks ≠ [] → old ≠ new → ∀ n, 0 < n →
            withdrawWith old s' n = .error .SecretMismatchError)) := by
  constructor
  · rintro ⟨b, hb, hne⟩
    have hcond : ¬ ∀ b ∈ s.blocks, b.secret = old := fun hall => hne (hall b hb)
    have herr : updateDeviceSecret s old new = .error .SecretMismatchError := by
      unfold updateDeviceSecret
      rw [if_neg hcond]
    exact ⟨herr, by simp [step, herr]⟩
  · intro s' h
    unfold updateDeviceSecret at h
    split at h
    case isFalse => exact absurd h (by simp)
    case isTrue hall =>
      rw [Except.ok.injEq] at h
      subst h
      have hsec : ∀ b ∈ (s.blocks.map (fun b => { b with secret := new })), b.secret = new := by
        intro b hb
        rw [List.mem_map] at hb
        obtain ⟨a, _, rfl⟩ := hb
        rfl
      refine ⟨hsec, ?_, ?_⟩
      · intro n hn
        have hn' : n ≤ sumLen (s.blocks.map (fun b => { b with secret := new })) := hn
        obtain ⟨rs, rest, hr⟩ :=
          withdrawBlocks_sufficient new (s.blocks.map (fun b => { b with secret := new }))
            n hsec hn'
        exact ⟨rs, _, withdrawWith_eq_ok hr⟩
      · intro hne hon n hpos
        cases hblk : s.blocks.map (fun b => { b with secret := new }) with
        | nil => exact absurd hblk (by simpa using hne)
        | cons b bs =>
          obtain ⟨m, rfl⟩ : ∃ m, n = m + 1 := ⟨n - 1, by omega⟩
          have hbnew : b.secret = new := hsec b (by rw [hblk]; exact List.mem_cons_self b bs)
          have hwb : withdrawBlocks old (b :: bs) (m + 1) =
              .error .SecretMismatchError := by
            simp only [withdrawBlocks]
            rw [if_neg (by rw [hbnew]; exact fun hh => hon hh.symm)]
          exact withdrawWith_eq_error hwb

/-- Concrete engine state used to witness
`C5_updateDeviceSecret_contract`: one block encrypted under secret
`[1]`. -/
def s5W : EngineState :=
  { secret := [1]
    blocks := [⟨0, 0, 4, [1]⟩]
    totalDownloaded := 4
    minNumCachedBytes := 1
    maxNumCachedBytes := 8
    cstate := .CACHE_STATE_READY }

/-- The state after rotating the secret of `s5W` from `[1]` to `[2]`. -/
def s5Wr : EngineState :=
  { secret := [2]
    blocks := [⟨0, 0, 4, [2]⟩]
    totalDownloaded := 4
    minNumCachedBytes := 1
    maxNumCachedBytes := 8
    cstate := .CACHE_STATE_READY }

/-- Witness for `C5_updateDeviceSecret_contract`: rotating with a wrong
old secret `[9]` fails and changes nothing; rotating `[1] → [2]`
re-encrypts the block under `[2]`, after which a 2-byte withdrawal
under `[2]` succeeds and a 1-byte withdrawal under `[1]` fails with
`SecretMismatchError`. -/
theorem C5_updateDeviceSecret_contract_witness :
    (updateDeviceSecret s5W [9] [2] = .error .SecretMismatchError ∧
       step s5W (.updateSecret [9] [2]) = (s5W, none)) ∧
    (∀ b ∈ s5Wr.blocks, b.secret = [2]) ∧
    (∃ rs s'', withdrawWith [2] s5Wr 2 = .ok (rs, s'')) ∧
    withdrawWith [1] s5Wr 1 = .error .SecretMismatchError :=
  ⟨(C5_updateDeviceSecret_contract s5W [9] [2]).1 ⟨⟨0, 0, 4, [1]⟩, by decide, by decide⟩,
   ((C5_updateDeviceSecret_contract s5W [1] [2]).2 s5Wr rfl).1,
   ((C5_updateDeviceSecret_contract s5W [1] [2]).2 s5Wr rfl).2.1 2 (by decide),
   ((C5_updateDeviceSecret_contract s5W [1] [2]).2 s5Wr rfl).2.2 (by decide) (by decide)
     1 (by decide)⟩

/-! ## The no-reuse invariant -/

lemma span_subset_blocksSpan {b : RandomBlock} {bs : List RandomBlock} (hb : b ∈ bs) :
    b.span ⊆ blocksSpan bs := by
  induction bs with
  | nil => cases hb
  | cons c cs ih =>
    rw [blocksSpan_cons]
    rcases List.mem_cons.mp hb with rfl | h1
    · exact Finset.subset_union_left
    · exact (ih h1).trans Finset.subset_union_right

lemma blocksSpan_map_secret (bs : List RandomBlock) (k : List Nat) :
    blocksSpan (bs.map (fun b => { b with secret := k })) = blocksSpan bs := by
  induction bs with
  | nil => rfl
  | cons b bs ih =>
    rw [List.map_cons, blocksSpan_cons, blocksSpan_cons, ih]
    rfl

/-- The no-reuse invariant carried along every trace: the live block
inventory is pairwise disjoint and lies inside the downloaded stream,
and every offset set previously returned by a withdrawal lies inside
the stream, is disjoint from the live inventory, and is disjoint from
every other previously returned set. -/
structure Inv (s : EngineState) (ws : List (Finset Nat)) : Prop where
  bdisj : List.Pairwise (fun a b : RandomBlock => Disjoint a.span b.span) s.blocks
  bbound : blocksSpan s.blocks ⊆ Finset.range s.totalDownloaded
  wbound : ∀ w ∈ ws, w ⊆ Finset.range s.totalDownloaded
  wb : ∀ w ∈ ws, Disjoint w (blocksSpan s.blocks)
  ww : List.Pairwise Disjoint ws

lemma inv_init (cfg : CacheConfig) : Inv (initState cfg) [] := by
  refine ⟨List.Pairwise.nil, ?_, ?_, ?_, List.Pairwise.nil⟩ <;>
    simp [initState, blocksSpan_nil]

lemma inv_withdraw {s : EngineState} {ws : List (Finset Nat)} (h : Inv s ws)
    {n : Nat} {rs : List ByteRange} {s' : EngineState}
    (hw : withdraw s n = .ok (rs, s')) :
    Inv s' (ws ++ [rangesSpan rs]) := by
  obtain ⟨hwb, hs'⟩ := withdraw_ok_elim hw
  obtain ⟨_, _, hspan, hdisj⟩ := withdrawBlocks_ok_spec s.secret s.blocks n rs s'.blocks hwb
  obtain ⟨hd, hp⟩ := hdisj h.bdisj
  have hsub_rs : rangesSpan rs ⊆ blocksSpan s.blocks := by
    rw [← hspan]; exact Finset.subset_union_left
  have hsub_rest : blocksSpan s'.blocks ⊆ blocksSpan s.blocks := by
    rw [← hspan]; exact Finset.subset_union_right
  have htot : s'.totalDownloaded = s.totalDownloaded := by rw [hs']
  refine ⟨hp, ?_, ?_, ?_, ?_⟩
  · rw [htot]; exact hsub_rest.trans h.bbound
  · intro w hw'
    rw [htot]
    rcases List.mem_append.mp hw' with h1 | h1
    · exact h.wbound w h1
    · rw [List.mem_singleton] at h1; subst h1
      exact hsub_rs.trans h.bbound
  · intro w hw'
    rcases List.mem_append.mp hw' with h1 | h1
    · exact (h.wb w h1).mono_right hsub_rest
    · rw [List.mem_singleton] at h1; subst h1
      exact hd
  · rw [List.pairwise_append]
    refine ⟨h.ww, List.pairwise_singleton _ _, ?_⟩
    intro a ha b hb
    rw [List.mem_singleton] at hb; subst hb
    exact (h.wb a ha).mono_right hsub_rs

lemma maintenance_blocks (s : EngineState) (loc r : Nat) :
    (maintenance s loc r).blocks =
      s.blocks ++
        [⟨loc, s.totalDownloaded, min r (s.maxNumCachedBytes - usable s), s.secret⟩] :=
  rfl

lemma maintenance_total (s : EngineState) (loc r : Nat) :
    (maintenance s loc r).totalDownloaded =
      s.totalDownloaded + min r (s.maxNumCachedBytes - usable s) :=
  rfl

lemma inv_maint {s : EngineState} {ws : List (Finset Nat)} (h : Inv s ws)
    (loc r : Nat) : Inv (maintenance s loc r) ws := by
  set a := min r (s.maxNumCachedBytes - usable s) with ha
  set nb : RandomBlock := ⟨loc, s.totalDownloaded, a, s.secret⟩ with hnb
  have hnew : nb.span ⊆ Finset.range (s.totalDownloaded + a) := by
    intro x hx
    simp only [hnb, RandomBlock.span, Finset.mem_Ico] at hx
    rw [Finset.mem_range]; omega
  have hdnew : ∀ t : Finset Nat, t ⊆ Finset.range s.totalDownloaded → Disjoint t nb.span := by
    intro t ht
    rw [Finset.disjoint_left]
    intro x hx hx2
    have h1 := ht hx
    rw [Finset.mem_range] at h1
    simp only [hnb, RandomBlock.span, Finset.mem_Ico] at hx2
    omega
  refine ⟨?_, ?_, ?_, ?_, h.ww⟩
  · rw [maintenance_blocks, List.pairwise_append]
    refine ⟨h.bdisj, List.pairwise_singleton _ _, ?_⟩
    intro b hb b' hb'
    rw [List.mem_singleton] at hb'; subst hb'
    exact hdnew b.span ((span_subset_blocksSpan hb).trans h.bbound)
  · rw [maintenance_blocks, maintenance_total, blocksSpan_append, blocksSpan_cons,
      blocksSpan_nil, Finset.union_empty]
    refine Finset.union_subset ?_ hnew
    exact h.bbound.trans (Finset.range_subset.mpr (Nat.le_add_right _ _))
  · intro w hw'
    rw [maintenance_total]
    exact (h.wbound w hw').trans (Finset.range_subset.mpr (Nat.le_add_right _ _))
  · intro w hw'
    rw [maintenance_blocks, blocksSpan_append, blocksSpan_cons, blocksSpan_nil,
      Finset.union_empty, Finset.disjoint_union_right]
    exact ⟨h.wb w hw', hdnew w (h.wbound w hw')⟩

lemma inv_update {s : EngineState} {ws : List (Finset Nat)} (h : Inv s ws)
    {old new : List Nat} {s' : EngineState}
    (hu : updateDeviceSecret s old new = .ok s') : Inv s' ws := by
  unfold updateDeviceSecret at hu
  split at hu
  case isFalse => exact absurd hu (by simp)
  case isTrue =>
    rw [Except.ok.injEq] at hu
    subst hu
    refine ⟨?_, ?_, h.wbound, ?_, h.ww⟩
    · exact List.pairwise_map.mpr h.bdisj
    · show blocksSpan (s.blocks.map (fun b => { b with secret := new })) ⊆
        Finset.range s.totalDownloaded
      rw [blocksSpan_map_secret]
      exact h.bbound
    · intro w hw'
      show Disjoint w (blocksSpan (s.blocks.map (fun b => { b with secret := new })))
      rw [blocksSpan_map_secret]
      exact h.wb w hw'

lemma inv_wipe {s : EngineState} {ws : List (Finset Nat)} (h : Inv s ws) :
    Inv (wipeEngine s) ws := by
  refine ⟨List.Pairwise.nil, ?_, h.wbound, ?_, h.ww⟩
  · show blocksSpan [] ⊆ Finset.range s.totalDownloaded
    rw [blocksSpan_nil]
    exact Finset.empty_subset _
  · intro w _
    show Disjoint w (blocksSpan [])
    rw [blocksSpan_nil]
    exact Finset.disjoint_empty_right w

lemma step_preserves {s : EngineState} {ws : List (Finset Nat)} (h : Inv s ws) (op : Op) :
    Inv (step s op).1
      (ws ++ (match (step s op).2 with | some rs => [rangesSpan rs] | none => [])) := by
  cases op with
  | maint loc r => simpa [step] using inv_maint h loc r
  | withdrawOp n =>
    dsimp only [step]
    cases hw : withdraw s n with
    | error e => simpa using h
    | ok p =>
      obtain ⟨rs, s'⟩ := p
      simpa using inv_withdraw h hw
  | genSym mode k =>
    dsimp only [step]
    cases hw : withdraw s (withdrawSize mode k) with
    | error e => simpa using h
    | ok p =>
      obtain ⟨rs, s'⟩ := p
      simpa using inv_withdraw h hw
  | updateSecret old new =>
    dsimp only [step]
    cases hu : updateDeviceSecret s old new with
    | error e => simpa using h
    | ok s' => simpa using inv_update h hu
  | wipeOp => simpa [step] using inv_wipe h

lemma run_preserves {s : EngineState} {ws : List (Finset Nat)} (h : Inv s ws)
    (ops : List Op) : Inv (run s ops).1 (ws ++ (run s ops).2) := by
  induction ops generalizing s ws with
  | nil => simpa [run] using h
  | cons op ops ih =>
    have h2 := ih (step_preserves h op)
    simp only [run]
    rw [← List.append_assoc]
    exact h2

/-- C1: no-reuse of random material.  Along every sequence of engine
operations from a freshly initialized engine (arbitrary interleavings
of maintenance downloads, raw withdrawals, `genSymmetricKey` calls in
either mode and with any key size, device-secret rotations and wipes —
per the spec, concurrent calls serialize through the per-engine
critical section, so every concurrent history is such a sequence), the
offset sets returned by distinct successful withdrawals are pairwise
disjoint: no byte of any random block is ever handed out twice. -/
theorem C1_no_reuse (cfg : CacheConfig) (ops : List Op) :
    List.Pairwise Disjoint (run (initState cfg) ops).2 := by
  have h := run_preserves (inv_init cfg) ops
  have hww := h.ww
  simpa using hww

end QryptSecurity
